import Mathlib

/-!
Verification of the IndusGlyphs transliteration and frequency pipeline.

The definitions below are a shallow embedding of the Python sources:
* `translate.py` — `IndusTextProcessor.xlitize` (the Decoder) and
  `IndusTextProcessor.canonize` (the Canonicalizer);
* `xlit-test.py` — the test script's variant `canonize` (here `canonizeTest`);
* `frequency.py` — `IndusAnalyzer.process_frequency_mapping` and
  `IndusAnalyzer.create_frequency_dataframe`.

Strings are modelled as `List Char` (`Str`).  Python regular-expression
suffix tests such as `re.search(r'([iu]|an|as)$', s)` are modelled as the
corresponding `endsWith` tests (the sources never put newlines in these
fields, so `$` is an end-of-string anchor).  Python `dict`s (which preserve
insertion order) are modelled as association lists.
-/

abbrev Str := List Char

/-- `\d` for the ASCII digit runs extracted by `re.findall(r'(\d+)', text)`. -/
def isDig (c : Char) : Bool := '0' ≤ c && c ≤ '9'

/-- Worker for `digitRuns`: `cur` is the (reversed) digit run in progress. -/
def digitRunsAux : Str → Str → List Str
  | [], cur => if cur = [] then [] else [cur.reverse]
  | c :: cs, cur =>
    if isDig c then digitRunsAux cs (c :: cur)
    else if cur = [] then digitRunsAux cs []
    else cur.reverse :: digitRunsAux cs []

/-- `re.findall(r'(\d+)', text)`: the maximal decimal digit runs of `text`. -/
def digitRuns (text : Str) : List Str := digitRunsAux text []

/-- The 17-character replacement string `'-999-999-999-999-'`. -/
def slashFill : Str := ['-', '9', '9', '9', '-', '9', '9', '9', '-', '9', '9', '9',
  '-', '9', '9', '9', '-']

/-- `text.replace('/', '-999-999-999-999-')` (line 104 of `translate.py`). -/
def expandSlash : Str → Str
  | [] => []
  | c :: cs => (if c = '/' then slashFill else [c]) ++ expandSlash cs

/-- Worker for `splitDash`; `cur` holds the reversed current piece. -/
def splitDashAux : Str → Str → List Str
  | [], cur => [cur.reverse]
  | c :: cs, cur => if c = '-' then cur.reverse :: splitDashAux cs [] else splitDashAux cs (c :: cur)

/-- Python `s.split('-')`: always returns at least one (possibly empty) piece. -/
def splitDash (s : Str) : List Str := splitDashAux s []

/-- Python `'-'.join(parts)`. -/
def joinDash : List Str → Str
  | [] => []
  | [p] => p
  | p :: ps => p ++ '-' :: joinDash ps

/-- `s` ends with the single character `c`. -/
def endsWith1 (s : Str) (c : Char) : Bool :=
  match s.reverse with
  | [] => false
  | d :: _ => d = c

/-- `s` ends with the two-character sequence `c1 c2`. -/
def endsWith2 (s : Str) (c1 c2 : Char) : Bool :=
  match s.reverse with
  | d2 :: d1 :: _ => decide (d1 = c1) && decide (d2 = c2)
  | _ => false

/-- `re.search(r'([iu]|an|as)$', s)`: `s` ends in `i`, `u`, `an` or `as`. -/
def endsIUAnAs (s : Str) : Bool :=
  endsWith1 s 'i' || endsWith1 s 'u' || endsWith2 s 'a' 'n' || endsWith2 s 'a' 's'

/-- `re.search(r'([iueofFxX]|an|as)$', s)`: the broader vowel-ending class used
by the per-sign check on the random rendering. -/
def endsRndClass (s : Str) : Bool :=
  endsWith1 s 'i' || endsWith1 s 'u' || endsWith1 s 'e' || endsWith1 s 'o' ||
  endsWith1 s 'f' || endsWith1 s 'F' || endsWith1 s 'x' || endsWith1 s 'X' ||
  endsWith2 s 'a' 'n' || endsWith2 s 'a' 's'

/-- `re.search(r'([iueo]|an|as)$', s)`: the class used by the final check on
the random rendering (line 169 of `translate.py`). -/
def endsIUEOAnAs (s : Str) : Bool :=
  endsWith1 s 'i' || endsWith1 s 'u' || endsWith1 s 'e' || endsWith1 s 'o' ||
  endsWith2 s 'a' 'n' || endsWith2 s 'a' 's'

/-- `re.match(r'^[aiu]$', s)`: `s` is a single bare vowel. -/
def isBareVowel (s : Str) : Bool := s = ['a'] || s = ['i'] || s = ['u']

/-- One entry of `xlit_map` (the Sign Table). -/
structure SignData where
  xlit : Str
  canonical : Str
  random : Str
  regex : Str
deriving DecidableEq

/-- A Sign Table: sign id (digit string) to its data, `None` when absent. -/
abbrev SignMap := Str → Option SignData

/-- The condition of lines 149-151 of `translate.py`: insert the implicit
vowel `a` into the spelling unless the accumulated string ends in the vowel
class, the next unit is a bare vowel, or the accumulated string ends in `.`. -/
def vowelCondStr (s unit : Str) : Bool :=
  !endsIUAnAs s && !isBareVowel unit && !endsWith1 s '.'

/-- The condition of lines 155-158 of `translate.py` (random rendering),
without the leading `not fullrandom` guard. -/
def vowelCondRnd (s unit : Str) : Bool :=
  !endsRndClass s && !isBareVowel unit && !endsWith1 s '.'

/-- Accumulated state of the `xlitize` loop: `str_result`, `rnd_result`,
`regex_result`. -/
structure XlitAcc where
  strRes : Str
  rndRes : Str
  regexRes : Str
deriving DecidableEq

/-- The body of the `for row in results[1:]` loop of `xlitize`
(lines 148-162 of `translate.py`) for a sign present in the table. -/
def xlitStep (fullrandom : Bool) (acc : XlitAcc) (sign : SignData) : XlitAcc :=
  let acc1 := if vowelCondStr acc.strRes sign.xlit then
      { acc with strRes := acc.strRes ++ ['a'], regexRes := acc.regexRes ++ ['a', '?'] }
    else acc
  let acc2 := if !fullrandom && vowelCondRnd acc1.rndRes sign.random then
      { acc1 with rndRes := acc1.rndRes ++ ['a'] }
    else acc1
  { strRes := acc2.strRes ++ '-' :: sign.xlit,
    rndRes := acc2.rndRes ++ '-' :: sign.random,
    regexRes := acc2.regexRes ++ sign.xlit }

/-- The `for row in results[1:]` loop of `xlitize`; a sign missing from the
table only logs a warning and is skipped. -/
def xlitLoop (fullrandom : Bool) (m : SignMap) (acc : XlitAcc) : List Str → XlitAcc
  | [] => acc
  | r :: rest =>
    match m r with
    | some sign => xlitLoop fullrandom m (xlitStep fullrandom acc sign) rest
    | none => xlitLoop fullrandom m acc rest

/-- The final vowel check of `xlitize` (lines 165-170 of `translate.py`). -/
def xlitFinal (fullrandom : Bool) (acc : XlitAcc) : XlitAcc :=
  let acc1 := if !endsIUAnAs acc.strRes then
      { acc with strRes := acc.strRes ++ ['a'], regexRes := acc.regexRes ++ ['a', '?'] }
    else acc
  if !fullrandom && !endsIUEOAnAs acc1.rndRes then
    { acc1 with rndRes := acc1.rndRes ++ ['a'] }
  else acc1

/-- Lines 135-170 of `translate.py`: parse, reverse, seed from the first
(rightmost) sign, loop, final vowel check.  `none` models the two early
returns of the all-empty result dict. -/
def xlitCore (fullrandom : Bool) (m : SignMap) (text : Str) : Option XlitAcc :=
  match (digitRuns text).reverse with
  | [] => none
  | r0 :: rest =>
    match m r0 with
    | none => none
    | some s0 =>
      some (xlitFinal fullrandom (xlitLoop fullrandom m ⟨s0.xlit, s0.random, s0.xlit⟩ rest))

/-- The result dict of `xlitize`. -/
structure XlitResult where
  str : Str
  regex : Str
  description : Str
  random : Str
deriving DecidableEq

def emptyXlitResult : XlitResult := ⟨[], [], [], []⟩

def randomHeader : Str := "⚄ random: ".data

/-- `IndusTextProcessor.xlitize` (lines 130-181 of `translate.py`). -/
def xlitize (fullrandom : Bool) (m : SignMap) (text : Str) : XlitResult :=
  match xlitCore fullrandom m text with
  | none => emptyXlitResult
  | some acc =>
    let strR := joinDash (splitDash acc.strRes).reverse
    let rndR := joinDash (splitDash acc.rndRes).reverse
    { str := strR, regex := acc.regexRes, description := strR,
      random := randomHeader ++ rndR }

/-- Numeric value of a digit run (Python `int(row)` on an all-digit string). -/
def natOfDigits (s : Str) : Nat := s.foldl (fun n c => 10 * n + (c.toNat - '0'.toNat)) 0

/-- `chr(0xE000 + int(row))`: the private-use codepoint of a sign id. -/
def signChar (r : Str) : Char := Char.ofNat (0xE000 + natOfDigits r)

/-- `row.isdigit()`: nonempty and all characters are digits. -/
def allDigits (s : Str) : Bool := !s.isEmpty && s.all isDig

/-- Lines 118-121 of `translate.py`: split a canonical field on `-` and keep
the codepoint of each all-digit piece. -/
def expandCanonical (canonical : Str) : Str :=
  (splitDash canonical).foldr (fun a acc => if allDigits a then signChar a :: acc else acc) []

/-- The result dict of `canonize` in `translate.py`. -/
structure CanonResult where
  str : Str
  canon : Str
deriving DecidableEq

/-- The parse used by `canonize`: expand `/` into four `999` sentinels, then
extract digit runs (lines 104-105 of `translate.py`). -/
def canonParse (text : Str) : List Str := digitRuns (expandSlash text)

/-- The body of the `for row in results` loop of `canonize`
(lines 110-126 of `translate.py`).  Note that a present sign with a
non-self *empty* canonical field is skipped (`continue`), and a sign missing
from the table falls back to its raw codepoint. -/
def canonStep (m : SignMap) (acc : CanonResult) (r : Str) : CanonResult :=
  let c := signChar r
  let str1 := acc.str ++ [c]
  match m r with
  | some s =>
    if r ≠ s.canonical then
      if s.canonical = [] then ⟨str1, acc.canon⟩
      else ⟨str1, acc.canon ++ expandCanonical s.canonical⟩
    else ⟨str1, acc.canon ++ [c]⟩
  | none => ⟨str1, acc.canon ++ [c]⟩

/-- `IndusTextProcessor.canonize` (lines 102-127 of `translate.py`).  It
always returns the structured `{str, canon}` result. -/
def canonize (m : SignMap) (text : Str) : CanonResult :=
  (canonParse text).foldl (canonStep m) ⟨[], []⟩

/-- The per-sign contribution to `canonicalCodepoints` in `canonize`. -/
def canonContrib (m : SignMap) (r : Str) : Str :=
  match m r with
  | some s =>
    if r ≠ s.canonical then
      if s.canonical = [] then [] else expandCanonical s.canonical
    else [signChar r]
  | none => [signChar r]

/-- `int(a)` in the test script's `canonize`: defined only on all-digit
pieces; elsewhere the Python code raises `ValueError`. -/
def parseDigits (s : Str) : Option Nat :=
  if allDigits s then some (natOfDigits s) else none

/-- Lines 92-94 of `xlit-test.py`: expand a canonical field, failing (like
the Python `int` call) on a piece that is not a digit run. -/
def expandCanonicalStrict (canonical : Str) : Option Str :=
  (splitDash canonical).foldr
    (fun a acc => do
      let n ← parseDigits a
      let rest ← acc
      pure (Char.ofNat (0xE000 + n) :: rest))
    (some [])

/-- The loop of the test script's `canonize` (lines 85-96 of `xlit-test.py`).
`Sum.inl r` models the `return row` bare-id short-circuit; `none` models an
uncaught `ValueError`. -/
def canonTestLoop (m : SignMap) : List Str → Str → Str → Option (Str ⊕ CanonResult)
  | [], str0, canon0 => some (Sum.inr ⟨str0, canon0⟩)
  | r :: rs, str0, canon0 =>
    let c := signChar r
    let str1 := str0 ++ [c]
    match m r with
    | some s =>
      if r ≠ s.canonical then
        if s.canonical = [] then some (Sum.inl r)
        else
          match expandCanonicalStrict s.canonical with
          | some chars => canonTestLoop m rs str1 (canon0 ++ chars)
          | none => none
      else canonTestLoop m rs str1 (canon0 ++ [c])
    | none => canonTestLoop m rs str1 (canon0 ++ [c])

/-- The test script's `canonize` (lines 79-97 of `xlit-test.py`): on a
present sign with a non-self empty canonical field it returns the bare raw
sign id (`Sum.inl`). -/
def canonizeTest (m : SignMap) (text : Str) : Option (Str ⊕ CanonResult) :=
  canonTestLoop m (digitRuns (expandSlash text)) [] []

/-! ### The Frequency Aggregator (`frequency.py`) -/

/-- Strict lexicographic comparison of strings by character code, as Python
compares `str` values. -/
def strLT : Str → Str → Bool
  | [], [] => false
  | [], _ :: _ => true
  | _ :: _, [] => false
  | a :: x, b :: y => decide (a < b) || (decide (a = b) && strLT x y)

/-- Python `<=` on strings. -/
def strLE (x y : Str) : Bool := strLT x y || decide (x = y)

/-- One row of the exported frequency table:
`(Substring, Unicode, Frequency, IsCanonical)`. -/
structure FreqRow where
  substring : Str
  unicode : Str
  freq : Nat
  isCanonical : Bool
deriving DecidableEq

/-- Equality of the three keys used by the final `sort_values` call. -/
def rowKeyEq (r1 r2 : FreqRow) : Bool :=
  decide (r1.substring = r2.substring) && decide (r1.isCanonical = r2.isCanonical) &&
    decide (r1.freq = r2.freq)

/-- `false` sorts before `true` (pandas sorts booleans as integers). -/
def boolLT (a b : Bool) : Bool := !a && b

/-- Strict order on rows used by
`sort_values(['Substring', 'IsCanonical', 'Frequency'], ascending=[True, True, False])`. -/
def rowLT (r1 r2 : FreqRow) : Bool :=
  strLT r1.substring r2.substring ||
  (decide (r1.substring = r2.substring) &&
    (boolLT r1.isCanonical r2.isCanonical ||
     (decide (r1.isCanonical = r2.isCanonical) && decide (r2.freq < r1.freq))))

/-- The (total) preorder on rows used by the final sort. -/
def rowLEb (r1 r2 : FreqRow) : Bool := rowLT r1 r2 || rowKeyEq r1 r2

def rowLEP : FreqRow → FreqRow → Prop := fun r1 r2 => rowLEb r1 r2 = true

instance : DecidableRel rowLEP := fun r1 r2 => by unfold rowLEP; infer_instance

/-- `rowLEb` refined by the codepoint column: substring ascending, then
`isCanonical` ascending, then frequency descending, ties broken by codepoint
ascending. -/
def rowLE4 (r1 r2 : FreqRow) : Bool :=
  rowLT r1 r2 || (rowKeyEq r1 r2 && strLE r1.unicode r2.unicode)

/-- The key `lambda x: (-x[1], x[0])` of the inner `sorted` call in
`create_frequency_dataframe`: frequency descending, codepoint ascending. -/
def pairLEb (a b : Str × Nat) : Bool :=
  decide (b.2 < a.2) || (decide (a.2 = b.2) && strLE a.1 b.1)

def pairLEP : Str × Nat → Str × Nat → Prop := fun a b => pairLEb a b = true

instance : DecidableRel pairLEP := fun a b => by unfold pairLEP; infer_instance

/-- Python `sorted(..., key=lambda x: (-x[1], x[0]))`.  Python's sort is
stable; a stable sort with respect to a total preorder is unique, so it is
modelled by insertion sort. -/
def sortPairs (cnts : List (Str × Nat)) : List (Str × Nat) :=
  List.insertionSort pairLEP cnts

/-- The string `'_canonical'` marking canonical keys of the frequency dict. -/
def canonMark : Str := ['_', 'c', 'a', 'n', 'o', 'n', 'i', 'c', 'a', 'l']

/-- Worker for `removeCanonMark` (fuel-indexed so that it is structural; the
fuel never runs out when it starts at the length of the string). -/
def removeCanonAux : Nat → Str → Str
  | 0, s => s
  | _, [] => []
  | f + 1, c :: cs =>
    if canonMark.isPrefixOf (c :: cs) then removeCanonAux f ((c :: cs).drop 10)
    else c :: removeCanonAux f cs

/-- Python `substring.replace('_canonical', '')`: remove every (left-to-right,
non-overlapping) occurrence of `'_canonical'`. -/
def removeCanonMark (s : Str) : Str := removeCanonAux s.length s

/-- `substring.endswith('_canonical')`. -/
def hasCanonMark (key : Str) : Bool := canonMark.isSuffixOf key

/-- The base substring a frequency-dict key is displayed under. -/
def entryBase (key : Str) : Str := if hasCanonMark key then removeCanonMark key else key

/-- The frequency mapping `substring_unicode_frequency`: an insertion-ordered
dict from key to an insertion-ordered dict from codepoint string to count. -/
abbrev FreqTable := List (Str × List (Str × Nat))

/-- `defaultdict(int)` increment: bump the count of `k`, appending a new
entry at the end when `k` is absent. -/
def bump (k : Str) : List (Str × Nat) → List (Str × Nat)
  | [] => [(k, 1)]
  | (k', v) :: rest => if k' = k then (k', v + 1) :: rest else (k', v) :: bump k rest

/-- `self.substring_unicode_frequency[key][cp] += 1`. -/
def bumpTable (key cp : Str) : FreqTable → FreqTable
  | [] => [(key, [(cp, 1)])]
  | (k', cnts) :: rest =>
    if k' = key then (k', bump cp cnts) :: rest else (k', cnts) :: bumpTable key cp rest

/-- One lowercase hexadecimal digit. -/
def hexDigit (n : Nat) : Char :=
  if n < 10 then Char.ofNat ('0'.toNat + n) else Char.ofNat ('a'.toNat + n - 10)

/-- Hex digits of `n` (most significant first), fuel-indexed to stay
structural; 8 digits cover every Unicode scalar value. -/
def toHexAux : Nat → Nat → Str
  | 0, _ => []
  | _ + 1, 0 => []
  | f + 1, n => toHexAux f (n / 16) ++ [hexDigit (n % 16)]

/-- `f'\u{ord(c):04x}'`: the escaped-scalar string used as a codepoint key. -/
def escapeU (c : Char) : Str :=
  let h := toHexAux 8 c.toNat
  '\\' :: 'u' :: (List.replicate (4 - h.length) '0' ++ h)

/-- One record of the translated corpus, as read by `process_frequency_mapping`;
`none` models a null (NaN) field. -/
structure RowRec where
  id : Str
  description : Option Str
  text : Option Str
  canonized : Option Str

/-- The warnings emitted by `process_frequency_mapping` (`logger.warning`). -/
inductive FreqWarning where
  | lenMismatch (id : Str) (nsub nuni : Nat)
deriving DecidableEq

/-- Lines 95-98 of `frequency.py`: the regular (`isCanonical = false`)
increments of one record. -/
def regularPass (tbl : FreqTable) (subs ucs : List Str) : FreqTable :=
  (subs.zip ucs).foldl
    (fun t p => if !p.1.isEmpty && !p.2.isEmpty then bumpTable p.1 p.2 t else t) tbl

/-- Lines 100-106 of `frequency.py`: the canonical increments of one record,
keyed under `substring + '_canonical'`, applied only when the canonical
codepoint list has the same length as the substring list. -/
def canonicalPass (tbl : FreqTable) (subs cucs : List Str) : FreqTable :=
  (subs.zip cucs).foldl
    (fun t p => if !p.1.isEmpty && !p.2.isEmpty then bumpTable (p.1 ++ canonMark) p.2 t else t)
    tbl

/-- The body of the `for idx, row in df.iterrows()` loop of
`process_frequency_mapping` (lines 80-106 of `frequency.py`) for one record,
returning the updated table and the warnings logged. -/
def processRow (tbl : FreqTable) (row : RowRec) : FreqTable × List FreqWarning :=
  match row.description, row.text with
  | some desc, some txt =>
    let subs := splitDash desc
    let ucs := txt.map escapeU
    if subs.length ≠ ucs.length then
      (tbl, [.lenMismatch row.id subs.length ucs.length])
    else
      let tbl1 := regularPass tbl subs ucs
      match row.canonized with
      | some canon =>
        let cucs := canon.map escapeU
        if subs.length = cucs.length then (canonicalPass tbl1 subs cucs, [])
        else (tbl1, [])
      | none => (tbl1, [])
  | _, _ => (tbl, [])

/-- The rows contributed by one entry of the frequency dict in
`create_frequency_dataframe` (lines 112-123 of `frequency.py`). -/
def rowsOfEntry (e : Str × List (Str × Nat)) : List FreqRow :=
  (sortPairs e.2).map (fun p => ⟨entryBase e.1, p.1, p.2, hasCanonMark e.1⟩)

/-- `create_frequency_dataframe` (lines 109-132 of `frequency.py`).  The
final multi-column `sort_values` call is pandas' stable lexicographic sort
(`np.lexsort`); a stable sort with respect to a total preorder is unique, so
it is modelled by insertion sort with `rowLEP`. -/
def createFrequencyDataframe (tbl : FreqTable) : List FreqRow :=
  List.insertionSort rowLEP (tbl.map rowsOfEntry).flatten

/-! ### Helper lemmas -/

theorem endsWith1_append_dash (pre x : Str) (c : Char) (hc : c ≠ '-') :
    endsWith1 (pre ++ '-' :: x) c = endsWith1 x c := by
  unfold endsWith1
  rw [List.reverse_append, List.reverse_cons, List.append_assoc]
  cases hx : x.reverse with
  | nil => simp [Ne.symm hc]
  | cons d ds => simp

theorem endsWith2_append_dash (pre x : Str) (c1 c2 : Char) (hc1 : c1 ≠ '-') (hc2 : c2 ≠ '-') :
    endsWith2 (pre ++ '-' :: x) c1 c2 = endsWith2 x c1 c2 := by
  unfold endsWith2
  rw [List.reverse_append, List.reverse_cons, List.append_assoc]
  cases hx : x.reverse with
  | nil =>
    cases pre.reverse with
    | nil => simp [Ne.symm hc2]
    | cons p ps => simp [Ne.symm hc2]
  | cons d ds =>
    cases ds with
    | nil => simp [Ne.symm hc1]
    | cons d1 ds1 => simp

theorem endsIUAnAs_append_dash (pre x : Str) :
    endsIUAnAs (pre ++ '-' :: x) = endsIUAnAs x := by
  unfold endsIUAnAs
  rw [endsWith1_append_dash pre x 'i' (by decide), endsWith1_append_dash pre x 'u' (by decide),
    endsWith2_append_dash pre x 'a' 'n' (by decide) (by decide),
    endsWith2_append_dash pre x 'a' 's' (by decide) (by decide)]

theorem vowelCondStr_append_dash (pre x y : Str) :
    vowelCondStr (pre ++ '-' :: x) y = vowelCondStr x y := by
  unfold vowelCondStr
  rw [endsIUAnAs_append_dash, endsWith1_append_dash pre x '.' (by decide)]

/-- C1: in the Decoder's per-sign step, the implicit vowel `a` is inserted
into the accumulated spelling (and `a?` into the search pattern at the same
point) if and only if all three exemption conditions fail, and the decision
depends only on the previous sign's unit `x` and the next sign's unit
`sign.xlit`, independent of the rest of the accumulated context `pre`
(conjuncts three and four cover the first processed sign, where the
accumulated spelling is the bare unit `x`). -/
theorem vowel_insertion_local (fullrandom : Bool) (pre x rnd rgx : Str) (sign : SignData) :
    ((xlitStep fullrandom ⟨pre ++ '-' :: x, rnd, rgx⟩ sign).strRes
        = (pre ++ '-' :: x) ++ (if vowelCondStr x sign.xlit then ['a'] else []) ++ '-' :: sign.xlit)
  ∧ ((xlitStep fullrandom ⟨pre ++ '-' :: x, rnd, rgx⟩ sign).regexRes
        = rgx ++ (if vowelCondStr x sign.xlit then ['a', '?'] else []) ++ sign.xlit)
  ∧ ((xlitStep fullrandom ⟨x, rnd, rgx⟩ sign).strRes
        = x ++ (if vowelCondStr x sign.xlit then ['a'] else []) ++ '-' :: sign.xlit)
  ∧ ((xlitStep fullrandom ⟨x, rnd, rgx⟩ sign).regexRes
        = rgx ++ (if vowelCondStr x sign.xlit then ['a', '?'] else []) ++ sign.xlit) := by
  unfold xlitStep
  rw [vowelCondStr_append_dash]
  cases h : vowelCondStr x sign.xlit <;> simp [h] <;> split <;> simp

/-- C2 counterexample: the final vowel check is *not* the per-sign test.
With a single sign whose unit is the placeholder `.`, the per-sign rule's
trailing-`.` exemption would forbid insertion (first conjunct), yet the
final check of `xlitize` appends `a` (second conjunct).  Likewise for the
random rendering: the per-sign check exempts a trailing `f` (third
conjunct), but the final check's narrower class does not and appends `a`
(fourth conjunct). -/
theorem final_vowel_check_dot_cex :
    vowelCondStr ['.'] ['k'] = false
  ∧ (xlitize false (fun r => if r = ['1'] then some ⟨['.'], ['1'], ['k'], ['.']⟩ else none)
      ['1']).str = ['.', 'a']
  ∧ vowelCondRnd ['f'] ['k'] = false
  ∧ (xlitFinal false ⟨['i'], ['f'], ['i']⟩).rndRes = ['f', 'a'] := by decide

/-- C2 amended: the final check appends `a` to the spelling (and `a?` to the
search pattern) iff the spelling does not end in the vowel class
`i`/`u`/`an`/`as` — only that one exemption, without the per-sign rule's
trailing-`.` and bare-vowel exemptions — and appends `a` to the random
rendering, unless full-randomization mode is on, iff it does not end in
`i`/`u`/`e`/`o`/`an`/`as` (a narrower class than the per-sign random
check's `[iueofFxX]`). -/
theorem final_vowel_check_amended (fullrandom : Bool) (acc : XlitAcc) :
    ((xlitFinal fullrandom acc).strRes
        = if endsIUAnAs acc.strRes then acc.strRes else acc.strRes ++ ['a'])
  ∧ ((xlitFinal fullrandom acc).regexRes
        = if endsIUAnAs acc.strRes then acc.regexRes else acc.regexRes ++ ['a', '?'])
  ∧ ((xlitFinal fullrandom acc).rndRes
        = if fullrandom then acc.rndRes
          else if endsIUEOAnAs acc.rndRes then acc.rndRes else acc.rndRes ++ ['a']) := by
  cases h1 : endsIUAnAs acc.strRes <;> cases hf : fullrandom <;>
    cases h2 : endsIUEOAnAs acc.rndRes <;> simp [xlitFinal, h1, hf, h2]

/-- C3 counterexample: the claimed "+4 per `/`" law relative to the same
text with the `/` removed holds for neither parser on `"1/2"`: the
Decoder's parser does not expand `/` at all (it finds 2 runs, not 1 + 4),
and the Canonicalizer's parser finds 6 runs, not 1 + 4, because removing
the `/` merges the two adjacent digit runs. -/
theorem slash_expansion_cex :
    ¬ ((digitRuns ['1', '/', '2']).length = (digitRuns ['1', '2']).length + 4)
  ∧ ¬ ((canonParse ['1', '/', '2']).length = (canonParse ['1', '2']).length + 4) := by decide

theorem isDig_dash : isDig '-' = false := by decide

theorem isDig_nine : isDig '9' = true := by decide

theorem digitRunsAux_slashFill_tail (rest : Str) (cur : Str) :
    digitRunsAux (slashFill ++ rest) cur
      = (if cur = [] then [] else [cur.reverse])
          ++ ['9', '9', '9'] :: ['9', '9', '9'] :: ['9', '9', '9'] :: ['9', '9', '9']
          :: digitRunsAux rest [] := by
  cases cur with
  | nil => simp [slashFill, digitRunsAux, isDig_dash, isDig_nine]
  | cons c cs => simp [slashFill, digitRunsAux, isDig_dash, isDig_nine]

theorem digitRunsAux_expandSlash (cs : Str) : ∀ cur : Str,
    (digitRunsAux (expandSlash cs) cur).length
      = (digitRunsAux (cs.map fun c => if c = '/' then '-' else c) cur).length
          + 4 * cs.count '/' := by
  induction cs with
  | nil => intro cur; simp [expandSlash]
  | cons c cs ih =>
    intro cur
    by_cases hc : c = '/'
    · subst hc
      rw [List.count_cons_self]
      have e1 : expandSlash ('/' :: cs) = slashFill ++ expandSlash cs := by simp [expandSlash]
      have e2 : List.map (fun c => if c = '/' then '-' else c) ('/' :: cs)
          = '-' :: List.map (fun c => if c = '/' then '-' else c) cs := by simp
      rw [e1, e2, digitRunsAux_slashFill_tail]
      cases cur with
      | nil => simp [digitRunsAux, isDig_dash, ih []]; omega
      | cons d ds => simp [digitRunsAux, isDig_dash, ih []]; omega
    · rw [List.count_cons_of_ne (fun h => hc h.symm)]
      simp only [expandSlash, if_neg hc, List.map_cons, if_neg hc, List.singleton_append]
      by_cases hd : isDig c = true
      · simp only [digitRunsAux, if_pos hd]
        exact ih (c :: cur)
      · simp only [digitRunsAux, if_neg hd]
        cases cur with
        | nil => simpa using ih []
        | cons d ds => simp [ih []]; omega

/-- C3 amended: only the Canonicalizer's parse expands `/` (the Decoder's
`xlitize` parses the raw text with no expansion); each `/` contributes
exactly four `999` sentinel runs relative to the same text with each `/`
replaced by a plain non-digit separator `-`. -/
theorem slash_expansion_canonize_only (cs : Str) :
    (canonParse cs).length
      = (digitRuns (cs.map fun c => if c = '/' then '-' else c)).length + 4 * cs.count '/' := by
  unfold canonParse digitRuns
  exact digitRunsAux_expandSlash cs []

theorem canonStep_eq (m : SignMap) (s0 c0 : Str) (r : Str) :
    canonStep m ⟨s0, c0⟩ r = ⟨s0 ++ [signChar r], c0 ++ canonContrib m r⟩ := by
  unfold canonStep canonContrib
  cases hm : m r with
  | none => rfl
  | some s =>
    by_cases h1 : r ≠ s.canonical
    · by_cases h2 : s.canonical = []
      · simp [h1, h2]
        split <;> simp
      · simp [h1, h2]
    · simp [h1]

theorem canonFold (m : SignMap) (rs : List Str) : ∀ s0 c0 : Str,
    rs.foldl (canonStep m) ⟨s0, c0⟩
      = ⟨s0 ++ rs.map signChar, c0 ++ rs.flatMap (canonContrib m)⟩ := by
  induction rs with
  | nil => intro s0 c0; simp
  | cons r rs ih =>
    intro s0 c0
    simp only [List.foldl_cons, canonStep_eq, ih, List.map_cons, List.flatMap_cons]
    simp

/-- C4 counterexample: in `translate.py`, a sign that is present in the
table, declares a non-self canonical target, and has an empty canonical
field does *not* make `canonize` return the bare sign id: `canonize`
returns the structured result, with the sign's codepoint in the raw string
and nothing in the canonical string.  The bare-id short-circuit exists only
in the test script's `canonize` (second conjunct). -/
theorem empty_canonical_cex :
    canonize (fun r => if r = ['5'] then some ⟨['t'], [], ['t'], ['t']⟩ else none) ['5']
      = ⟨[Char.ofNat 0xE005], []⟩
  ∧ canonizeTest (fun r => if r = ['5'] then some ⟨['t'], [], ['t'], ['t']⟩ else none) ['5']
      = some (Sum.inl ['5']) := by decide

/-- C4 amended: the main pipeline's `canonize` never short-circuits: for
every input it returns the structured result whose raw string is the
codepoint of every parsed sign and whose canonical string is the
concatenation of the per-sign contributions — in particular a present sign
with a non-self empty canonical field contributes nothing to the canonical
string but its codepoint still appears in the raw string (the bare-id
return described by the claim exists only in `xlit-test.py`'s `canonize`,
see the counterexample). -/
theorem empty_canonical_skip (m : SignMap) (text : Str) :
    (canonize m text).str = (canonParse text).map signChar
  ∧ (canonize m text).canon = (canonParse text).flatMap (canonContrib m) := by
  unfold canonize
  rw [canonFold]
  simp

/-- C6: if the first element of the reversed parsed sequence — the
rightmost sign of the inscription — is absent from the Sign Table, `xlitize`
returns the all-empty result for the entire inscription, decoding nothing. -/
theorem first_sign_missing_aborts (fullrandom : Bool) (m : SignMap) (text : Str)
    (r0 : Str) (rest : List Str)
    (hparse : (digitRuns text).reverse = r0 :: rest) (hmiss : m r0 = none) :
    xlitize fullrandom m text = emptyXlitResult := by
  unfold xlitize xlitCore
  rw [hparse]
  simp [hmiss]

theorem first_sign_missing_aborts_witness :
    xlitize false
      (fun r => if r = ['1'] then some ⟨['k', 'a'], ['1'], ['k'], ['k', 'a']⟩
        else if r = ['7'] then some ⟨['t', 'a'], ['7'], ['t'], ['t', 'a']⟩ else none)
      ("1-7-99".data) = emptyXlitResult :=
  first_sign_missing_aborts false _ _ ['9', '9'] [['7'], ['1']] (by decide) (by decide)

/-- C8: canonicalization is the identity on canonical input — if every
parsed sign id is present in the Sign Table with a canonical field equal to
its own id, the canonical codepoint string equals the raw codepoint string. -/
theorem canonize_id_on_canonical (m : SignMap) (text : Str)
    (h : ∀ r ∈ canonParse text, ∃ s, m r = some s ∧ s.canonical = r) :
    (canonize m text).canon = (canonize m text).str := by
  unfold canonize
  rw [canonFold]
  simp only [List.nil_append]
  have : ∀ rs : List Str, (∀ r ∈ rs, ∃ s, m r = some s ∧ s.canonical = r) →
      rs.flatMap (canonContrib m) = rs.map signChar := by
    intro rs
    induction rs with
    | nil => intro _; simp
    | cons r rs ih =>
      intro hrs
      obtain ⟨s, hm, hc⟩ := hrs r (List.mem_cons_self r rs)
      have hcontrib : canonContrib m r = [signChar r] := by
        simp [canonContrib, hm, hc]
      rw [List.flatMap_cons, List.map_cons, hcontrib, ih (fun q hq => hrs q (List.mem_cons_of_mem r hq))]
      rfl
  exact this _ h

theorem canonize_id_on_canonical_witness :
    (canonize (fun r => if r = ['1'] then some ⟨['k', 'a'], ['1'], ['k'], ['k', 'a']⟩
        else if r = ['2'] then some ⟨['i'], ['2'], ['i'], ['i']⟩ else none)
      ("1-2".data)).canon
    = (canonize (fun r => if r = ['1'] then some ⟨['k', 'a'], ['1'], ['k'], ['k', 'a']⟩
        else if r = ['2'] then some ⟨['i'], ['2'], ['i'], ['i']⟩ else none)
      ("1-2".data)).str := by
  apply canonize_id_on_canonical
  intro r hr
  have e : canonParse ("1-2".data) = [['1'], ['2']] := by decide
  rw [e] at hr
  simp only [List.mem_cons, List.not_mem_nil, or_false] at hr
  rcases hr with rfl | rfl
  · exact ⟨⟨['k', 'a'], ['1'], ['k'], ['k', 'a']⟩, by decide, rfl⟩
  · exact ⟨⟨['i'], ['2'], ['i'], ['i']⟩, by decide, rfl⟩

/-! ### Dash-counting and split/join lemmas -/

theorem splitDashAux_length (s : Str) : ∀ cur : Str,
    (splitDashAux s cur).length = s.count '-' + 1 := by
  induction s with
  | nil => intro cur; simp [splitDashAux]
  | cons c cs ih =>
    intro cur
    by_cases hc : c = '-'
    · subst hc
      simp [splitDashAux, ih [], List.count_cons]
    · simp [splitDashAux, hc, ih (c :: cur), List.count_cons]

theorem splitDash_length (s : Str) : (splitDash s).length = s.count '-' + 1 :=
  splitDashAux_length s []

theorem splitDashAux_no_dash (s : Str) : ∀ cur : Str, cur.count '-' = 0 →
    ∀ p ∈ splitDashAux s cur, p.count '-' = 0 := by
  induction s with
  | nil =>
    intro cur hcur p hp
    rw [show splitDashAux [] cur = [cur.reverse] from rfl] at hp
    rcases List.mem_singleton.mp hp with rfl
    simpa using hcur
  | cons c cs ih =>
    intro cur hcur p hp
    by_cases hc : c = '-'
    · subst hc
      rw [show splitDashAux ('-' :: cs) cur = cur.reverse :: splitDashAux cs [] from by
        rw [splitDashAux]; simp] at hp
      rcases List.mem_cons.mp hp with rfl | hp
      · simpa using hcur
      · exact ih [] (by simp) p hp
    · rw [show splitDashAux (c :: cs) cur = splitDashAux cs (c :: cur) from by
        rw [splitDashAux]; simp [hc]] at hp
      exact ih (c :: cur) (by simp [List.count_cons, hc, hcur]) p hp

theorem splitDash_no_dash (s : Str) : ∀ p ∈ splitDash s, p.count '-' = 0 :=
  splitDashAux_no_dash s [] (by simp)

theorem splitDash_ne_nil (s : Str) : splitDash s ≠ [] := by
  intro h
  have := splitDash_length s
  rw [h] at this
  simp at this

theorem joinDash_count : ∀ (p : Str) (ps : List Str),
    (joinDash (p :: ps)).count '-'
      = ((p :: ps).map (fun q => q.count '-')).sum + ps.length := by
  intro p ps
  induction ps generalizing p with
  | nil => simp [joinDash]
  | cons q ps ih =>
    show (p ++ '-' :: joinDash (q :: ps)).count '-' = _
    rw [List.count_append, List.count_cons]
    simp only [ih q, List.map_cons, List.sum_cons, List.length_cons]
    simp
    omega

theorem splitDashAux_run (p : Str) (hp : p.count '-' = 0) : ∀ cur : Str,
    splitDashAux p cur = [cur.reverse ++ p] := by
  induction p with
  | nil => intro cur; simp [splitDashAux]
  | cons c cs ih =>
    intro cur
    have hc : c ≠ '-' := by
      intro h
      subst h
      simp [List.count_cons] at hp
    have hcs : cs.count '-' = 0 := by
      simpa [List.count_cons, hc] using hp
    simp [splitDashAux, hc, ih hcs (c :: cur)]

theorem splitDashAux_run_dash (p t : Str) (hp : p.count '-' = 0) : ∀ cur : Str,
    splitDashAux (p ++ '-' :: t) cur = (cur.reverse ++ p) :: splitDashAux t [] := by
  induction p with
  | nil => intro cur; simp [splitDashAux]
  | cons c cs ih =>
    intro cur
    have hc : c ≠ '-' := by
      intro h
      subst h
      simp [List.count_cons] at hp
    have hcs : cs.count '-' = 0 := by
      simpa [List.count_cons, hc] using hp
    simp [splitDashAux, hc, ih hcs (c :: cur)]

theorem splitDash_joinDash : ∀ ps : List Str, ps ≠ [] →
    (∀ p ∈ ps, p.count '-' = 0) → splitDash (joinDash ps) = ps := by
  intro ps
  induction ps with
  | nil => intro h; exact absurd rfl h
  | cons p ps ih =>
    intro _ hnd
    cases ps with
    | nil =>
      show splitDash p = [p]
      unfold splitDash
      rw [splitDashAux_run p (hnd p (by simp)) []]
      simp
    | cons q ps' =>
      show splitDash (p ++ '-' :: joinDash (q :: ps')) = p :: q :: ps'
      unfold splitDash
      rw [splitDashAux_run_dash p _ (hnd p (by simp)) []]
      simp only [List.reverse_nil, List.nil_append]
      have := ih (by simp) (fun r hr => hnd r (List.mem_cons_of_mem p hr))
      rw [show splitDashAux (joinDash (q :: ps')) [] = splitDash (joinDash (q :: ps')) from rfl,
        this]

theorem count_joinDash_reverse (s : Str) :
    (joinDash (splitDash s).reverse).count '-' = s.count '-' := by
  obtain ⟨p, ps, hps⟩ := List.exists_cons_of_ne_nil
    (show (splitDash s).reverse ≠ [] by
      simpa using splitDash_ne_nil s)
  rw [hps, joinDash_count]
  have hzero : ((p :: ps).map (fun q => q.count '-')).sum = 0 := by
    apply List.sum_eq_zero
    intro n hn
    obtain ⟨q, hq, rfl⟩ := List.mem_map.mp hn
    refine splitDash_no_dash s q ?_
    rw [← List.mem_reverse, hps]
    exact hq
  rw [hzero]
  have hlen : (p :: ps).length = (splitDash s).length := by
    rw [← hps, List.length_reverse]
  rw [splitDash_length] at hlen
  simp only [List.length_cons] at hlen
  omega

theorem xlitStep_count (fullrandom : Bool) (acc : XlitAcc) (sign : SignData) :
    (xlitStep fullrandom acc sign).strRes.count '-'
      = acc.strRes.count '-' + sign.xlit.count '-' + 1 := by
  unfold xlitStep
  dsimp only
  split <;> split <;> simp [List.count_append, List.count_cons] <;> omega

theorem xlitLoop_count (fullrandom : Bool) (m : SignMap) : ∀ (rs : List Str) (acc : XlitAcc),
    (∀ r ∈ rs, ∀ s, m r = some s → s.xlit.count '-' = 0) →
    (xlitLoop fullrandom m acc rs).strRes.count '-'
      = acc.strRes.count '-' + (rs.filter (fun r => (m r).isSome)).length := by
  intro rs
  induction rs with
  | nil => intro acc _; simp [xlitLoop]
  | cons r rs ih =>
    intro acc h
    cases hm : m r with
    | none =>
      rw [show xlitLoop fullrandom m acc (r :: rs) = xlitLoop fullrandom m acc rs from by
        rw [xlitLoop, hm]]
      rw [ih acc (fun q hq => h q (List.mem_cons_of_mem r hq))]
      simp [List.filter_cons, hm]
    | some sign =>
      rw [show xlitLoop fullrandom m acc (r :: rs)
          = xlitLoop fullrandom m (xlitStep fullrandom acc sign) rs from by
        rw [xlitLoop, hm]]
      rw [ih _ (fun q hq => h q (List.mem_cons_of_mem r hq))]
      rw [xlitStep_count, h r (List.mem_cons_self r rs) sign hm]
      simp [List.filter_cons, hm]
      omega

theorem xlitFinal_count (fullrandom : Bool) (acc : XlitAcc) :
    (xlitFinal fullrandom acc).strRes.count '-' = acc.strRes.count '-' := by
  unfold xlitFinal
  dsimp only
  split <;> split <;> simp [List.count_append, List.count_cons]

theorem present_add_missing (m : SignMap) : ∀ rs : List Str,
    (rs.filter (fun r => (m r).isSome)).length + (rs.filter (fun r => (m r).isNone)).length
      = rs.length := by
  intro rs
  induction rs with
  | nil => simp
  | cons r rs ih =>
    cases hm : m r <;> simp [List.filter_cons, hm] <;> omega

/-- C5 counterexample.  First conjunct: when the first (rightmost) parsed
sign is missing from the table, `xlitize` aborts with the empty result, so
for `"1-7-99"` (with `99` missing) the token count is 1 (the empty string
splits into one empty token), not `3 - 1 = 2` as the claim states.  Second
conjunct: when a present sign's unit itself contains a hyphen (`k-a`), the
token count also exceeds `len - missing` (3 tokens instead of `2 - 0 = 2`). -/
theorem token_count_cex :
    (¬ ((splitDash (xlitize false
          (fun r => if r = ['1'] then some ⟨['k', 'a'], ['1'], ['k'], ['k', 'a']⟩
            else if r = ['7'] then some ⟨['t', 'a'], ['7'], ['t'], ['t', 'a']⟩ else none)
          ("1-7-99".data)).str).length
        = (digitRuns ("1-7-99".data)).length
            - ((digitRuns ("1-7-99".data)).filter
                (fun r => ((fun r => if r = ['1'] then some (⟨['k', 'a'], ['1'], ['k'], ['k', 'a']⟩ : SignData)
                  else if r = ['7'] then some ⟨['t', 'a'], ['7'], ['t'], ['t', 'a']⟩ else none) r).isNone)).length))
  ∧ (¬ ((splitDash (xlitize false
          (fun r => if r = ['1'] then some ⟨['k', '-', 'a'], ['1'], ['k'], ['k']⟩
            else if r = ['2'] then some ⟨['t', 'a'], ['2'], ['t'], ['t']⟩ else none)
          ("2-1".data)).str).length
        = (digitRuns ("2-1".data)).length
            - ((digitRuns ("2-1".data)).filter
                (fun r => ((fun r => if r = ['1'] then some (⟨['k', '-', 'a'], ['1'], ['k'], ['k']⟩ : SignData)
                  else if r = ['2'] then some ⟨['t', 'a'], ['2'], ['t'], ['t']⟩ else none) r).isNone)).length)) := by
  decide

/-- C5 amended: provided the first (rightmost) parsed sign is present in the
Sign Table (otherwise the Decoder aborts, see C6) and no present sign's
spelling unit contains the hyphen delimiter, the hyphen-delimited token
count of the Decoder's output spelling equals the length of the parsed
sequence minus the number of signs missing from the table; missing signs
after the first are skipped without aborting the rest of the sequence. -/
theorem token_count_amended (fullrandom : Bool) (m : SignMap) (text : Str)
    (r0 : Str) (rest : List Str) (s0 : SignData)
    (hparse : (digitRuns text).reverse = r0 :: rest)
    (h0 : m r0 = some s0)
    (hnd : ∀ r ∈ digitRuns text, ∀ s, m r = some s → s.xlit.count '-' = 0) :
    (splitDash (xlitize fullrandom m text).str).length
      = (digitRuns text).length
          - ((digitRuns text).filter (fun r => (m r).isNone)).length := by
  have hruns : digitRuns text = (r0 :: rest).reverse := by
    rw [← hparse, List.reverse_reverse]
  have hmemrev : ∀ r ∈ r0 :: rest, r ∈ digitRuns text := by
    intro r hr
    rw [hruns, List.mem_reverse]
    exact hr
  unfold xlitize xlitCore
  rw [hparse]
  dsimp only
  rw [h0]
  dsimp only
  rw [splitDash_length, count_joinDash_reverse, xlitFinal_count, xlitLoop_count]
  · have hx0 : s0.xlit.count '-' = 0 :=
      hnd r0 (hmemrev r0 (List.mem_cons_self r0 rest)) s0 h0
    dsimp only
    rw [hx0]
    have hfilterrev : ((digitRuns text).filter (fun r => (m r).isNone)).length
        = ((r0 :: rest).filter (fun r => (m r).isNone)).length := by
      rw [hruns, List.filter_reverse, List.length_reverse]
    rw [hfilterrev]
    have hlen : (digitRuns text).length = rest.length + 1 := by
      rw [hruns, List.length_reverse, List.length_cons]
    have hfc : ((r0 :: rest).filter (fun r => (m r).isNone)).length
        = (rest.filter (fun r => (m r).isNone)).length := by
      simp [List.filter_cons, h0]
    have hpm := present_add_missing m rest
    rw [hlen, hfc]
    omega
  · intro r hr s hs
    exact hnd r (hmemrev r (List.mem_cons_of_mem r0 hr)) s hs

theorem token_count_witness :
    (splitDash (xlitize false
        (fun r => if r = ['1'] then some ⟨['k', 'a'], ['1'], ['k'], ['k', 'a']⟩
          else if r = ['7'] then some ⟨['t', 'a'], ['7'], ['t'], ['t', 'a']⟩ else none)
        ("1-7".data)).str).length
      = (digitRuns ("1-7".data)).length
          - ((digitRuns ("1-7".data)).filter
              (fun r => ((fun r => if r = ['1'] then some (⟨['k', 'a'], ['1'], ['k'], ['k', 'a']⟩ : SignData)
                else if r = ['7'] then some ⟨['t', 'a'], ['7'], ['t'], ['t', 'a']⟩ else none) r).isNone)).length := by
  apply token_count_amended false _ _ ['7'] [['1']] ⟨['t', 'a'], ['7'], ['t'], ['t', 'a']⟩
  · decide
  · decide
  · intro r hr s hs
    have e : digitRuns ("1-7".data) = [['1'], ['7']] := by decide
    rw [e] at hr
    simp only [List.mem_cons, List.not_mem_nil, or_false] at hr
    rcases hr with rfl | rfl
    · simp only [if_pos rfl] at hs
      cases hs
      decide
    · simp only [show (['7'] = ['1']) = False by simp, if_false, if_pos rfl] at hs
      cases hs
      decide

/-- C7: at the end of the Decoder, the hyphen-delimited token order of the
spelling and of the random rendering is reversed (first and third
conjuncts), the search pattern is returned without any token reversal
(fourth conjunct), the `description` field equals the reversed spelling
(second conjunct), and the `random` field is `'⚄ random: '` followed by the
reversed random rendering (third conjunct).  `acc` is the accumulated state
after the final vowel check, before the split/reverse/join step. -/
theorem output_reversal (fullrandom : Bool) (m : SignMap) (text : Str) (acc : XlitAcc)
    (hcore : xlitCore fullrandom m text = some acc) :
    splitDash (xlitize fullrandom m text).str = (splitDash acc.strRes).reverse
  ∧ (xlitize fullrandom m text).description = (xlitize fullrandom m text).str
  ∧ (xlitize fullrandom m text).random
      = randomHeader ++ joinDash (splitDash acc.rndRes).reverse
  ∧ (xlitize fullrandom m text).regex = acc.regexRes := by
  unfold xlitize
  rw [hcore]
  dsimp only
  refine ⟨?_, rfl, rfl, rfl⟩
  apply splitDash_joinDash
  · simpa using splitDash_ne_nil acc.strRes
  · intro p hp
    exact splitDash_no_dash acc.strRes p (List.mem_reverse.mp hp)

theorem output_reversal_witness :
    splitDash (xlitize false
        (fun r => if r = ['1'] then some ⟨['k', 'a'], ['1'], ['k'], ['k', 'a']⟩
          else if r = ['2'] then some ⟨['i'], ['2'], ['i'], ['i']⟩ else none)
        ("1-2".data)).str
      = (splitDash ("i-kaa".data)).reverse
  ∧ (xlitize false
        (fun r => if r = ['1'] then some ⟨['k', 'a'], ['1'], ['k'], ['k', 'a']⟩
          else if r = ['2'] then some ⟨['i'], ['2'], ['i'], ['i']⟩ else none)
        ("1-2".data)).description
      = (xlitize false
        (fun r => if r = ['1'] then some ⟨['k', 'a'], ['1'], ['k'], ['k', 'a']⟩
          else if r = ['2'] then some ⟨['i'], ['2'], ['i'], ['i']⟩ else none)
        ("1-2".data)).str
  ∧ (xlitize false
        (fun r => if r = ['1'] then some ⟨['k', 'a'], ['1'], ['k'], ['k', 'a']⟩
          else if r = ['2'] then some ⟨['i'], ['2'], ['i'], ['i']⟩ else none)
        ("1-2".data)).random
      = randomHeader ++ joinDash (splitDash ("i-ka".data)).reverse
  ∧ (xlitize false
        (fun r => if r = ['1'] then some ⟨['k', 'a'], ['1'], ['k'], ['k', 'a']⟩
          else if r = ['2'] then some ⟨['i'], ['2'], ['i'], ['i']⟩ else none)
        ("1-2".data)).regex
      = ("ikaa?".data) :=
  output_reversal false _ _ ⟨"i-kaa".data, "i-ka".data, "ikaa?".data⟩ (by decide)

/-- C10: when a record's description substrings and raw-text codepoints
have equal lengths but the canonical codepoint list has a different length,
the regular increments are still applied (the result equals exactly the
regular pass), the canonical pass is skipped, no warning is logged, and the
outcome is identical to processing the same record with no canonical form
at all — so nothing reports the partial skip. -/
theorem canonical_pass_silent_skip (tbl : FreqTable) (row : RowRec) (desc txt canon : Str)
    (hd : row.description = some desc) (ht : row.text = some txt)
    (hc : row.canonized = some canon)
    (hlen : (splitDash desc).length = txt.length)
    (hclen : (splitDash desc).length ≠ canon.length) :
    processRow tbl row = (regularPass tbl (splitDash desc) (txt.map escapeU), [])
  ∧ processRow tbl row = processRow tbl { row with canonized := none } := by
  have hulen : (txt.map escapeU).length = txt.length := List.length_map txt escapeU
  have hculen : (canon.map escapeU).length = canon.length := List.length_map canon escapeU
  constructor
  · unfold processRow
    rw [hd, ht, hc]
    dsimp only
    rw [if_neg (by rw [hulen]; omega), if_neg (by rw [hculen]; omega)]
  · unfold processRow
    rw [hd, ht, hc]
    dsimp only
    rw [if_neg (by rw [hulen]; omega), if_neg (by rw [hculen]; omega),
      if_neg (by rw [hulen]; omega)]

theorem canonical_pass_silent_skip_witness :
    processRow [] ⟨['1'], some ("ka-ta".data),
        some [Char.ofNat 0xE001, Char.ofNat 0xE002], some [Char.ofNat 0xE001]⟩
      = (regularPass [] (splitDash ("ka-ta".data))
          ([Char.ofNat 0xE001, Char.ofNat 0xE002].map escapeU), [])
  ∧ processRow [] ⟨['1'], some ("ka-ta".data),
        some [Char.ofNat 0xE001, Char.ofNat 0xE002], some [Char.ofNat 0xE001]⟩
      = processRow [] ⟨['1'], some ("ka-ta".data),
          some [Char.ofNat 0xE001, Char.ofNat 0xE002], none⟩ :=
  canonical_pass_silent_skip [] _ ("ka-ta".data)
    [Char.ofNat 0xE001, Char.ofNat 0xE002] [Char.ofNat 0xE001]
    rfl rfl rfl (by decide) (by decide)

/-! ### Order lemmas for the frequency export -/

theorem strLT_trans : ∀ x y z : Str, strLT x y = true → strLT y z = true → strLT x z = true := by
  intro x
  induction x with
  | nil =>
    intro y z hxy hyz
    cases y with
    | nil => simp [strLT] at hxy
    | cons b ys =>
      cases z with
      | nil => simp [strLT] at hyz
      | cons c zs => simp [strLT]
  | cons a xs ih =>
    intro y z hxy hyz
    cases y with
    | nil => simp [strLT] at hxy
    | cons b ys =>
      cases z with
      | nil => simp [strLT] at hyz
      | cons c zs =>
        simp only [strLT, Bool.or_eq_true, Bool.and_eq_true, decide_eq_true_eq] at hxy hyz ⊢
        rcases hxy with h1 | ⟨he1, h1⟩
        · rcases hyz with h2 | ⟨he2, h2⟩
          · exact Or.inl (lt_trans h1 h2)
          · subst he2; exact Or.inl h1
        · subst he1
          rcases hyz with h2 | ⟨he2, h2⟩
          · exact Or.inl h2
          · subst he2; exact Or.inr ⟨rfl, ih ys zs h1 h2⟩

theorem strLT_trichotomy : ∀ x y : Str, strLT x y = true ∨ x = y ∨ strLT y x = true := by
  intro x
  induction x with
  | nil =>
    intro y
    cases y with
    | nil => simp [strLT]
    | cons b ys => simp [strLT]
  | cons a xs ih =>
    intro y
    cases y with
    | nil => simp [strLT]
    | cons b ys =>
      rcases lt_trichotomy a b with hab | hab | hab
      · exact Or.inl (by simp [strLT, hab])
      · subst hab
        rcases ih ys with h | h | h
        · exact Or.inl (by simp [strLT, h])
        · exact Or.inr (Or.inl (by rw [h]))
        · exact Or.inr (Or.inr (by simp [strLT, h]))
      · exact Or.inr (Or.inr (by simp [strLT, hab]))

theorem strLT_irrefl : ∀ x : Str, strLT x x = false := by
  intro x
  induction x with
  | nil => rfl
  | cons a xs ih => simp [strLT, ih]

theorem strLE_total (x y : Str) : strLE x y = true ∨ strLE y x = true := by
  unfold strLE
  rcases strLT_trichotomy x y with h | h | h
  · exact Or.inl (by simp [h])
  · exact Or.inl (by simp [h])
  · exact Or.inr (by simp [h])

theorem strLE_trans (x y z : Str) (hxy : strLE x y = true) (hyz : strLE y z = true) :
    strLE x z = true := by
  unfold strLE at hxy hyz ⊢
  simp only [Bool.or_eq_true, decide_eq_true_eq] at hxy hyz ⊢
  rcases hxy with h1 | rfl
  · rcases hyz with h2 | rfl
    · exact Or.inl (strLT_trans x y z h1 h2)
    · exact Or.inl h1
  · exact hyz

theorem rowKeyEq_iff (r1 r2 : FreqRow) :
    rowKeyEq r1 r2 = true
      ↔ r1.substring = r2.substring ∧ r1.isCanonical = r2.isCanonical ∧ r1.freq = r2.freq := by
  simp [rowKeyEq, and_assoc]

theorem rowKeyEq_symm (r1 r2 : FreqRow) (h : rowKeyEq r1 r2 = true) : rowKeyEq r2 r1 = true := by
  rw [rowKeyEq_iff] at h ⊢
  exact ⟨h.1.symm, h.2.1.symm, h.2.2.symm⟩

theorem rowKeyEq_trans (r1 r2 r3 : FreqRow) (h1 : rowKeyEq r1 r2 = true)
    (h2 : rowKeyEq r2 r3 = true) : rowKeyEq r1 r3 = true := by
  rw [rowKeyEq_iff] at h1 h2 ⊢
  exact ⟨h1.1.trans h2.1, h1.2.1.trans h2.2.1, h1.2.2.trans h2.2.2⟩

theorem rowLT_congr_left (r1 r2 r3 : FreqRow) (h : rowKeyEq r1 r2 = true) :
    rowLT r1 r3 = rowLT r2 r3 := by
  rw [rowKeyEq_iff] at h
  simp [rowLT, h.1, h.2.1, h.2.2]

theorem rowLT_congr_right (r1 r2 r3 : FreqRow) (h : rowKeyEq r2 r3 = true) :
    rowLT r1 r2 = rowLT r1 r3 := by
  rw [rowKeyEq_iff] at h
  simp [rowLT, h.1, h.2.1, h.2.2]

theorem boolLT_iff (a b : Bool) : boolLT a b = true ↔ a = false ∧ b = true := by
  cases a <;> cases b <;> simp [boolLT]

theorem rowLT_iff (r1 r2 : FreqRow) :
    rowLT r1 r2 = true
      ↔ strLT r1.substring r2.substring = true
        ∨ (r1.substring = r2.substring ∧
            (boolLT r1.isCanonical r2.isCanonical = true
              ∨ (r1.isCanonical = r2.isCanonical ∧ r2.freq < r1.freq))) := by
  simp [rowLT]

theorem rowLT_trans (r1 r2 r3 : FreqRow) (h1 : rowLT r1 r2 = true) (h2 : rowLT r2 r3 = true) :
    rowLT r1 r3 = true := by
  rw [rowLT_iff] at h1 h2 ⊢
  rcases h1 with hs1 | ⟨he1, h1⟩
  · rcases h2 with hs2 | ⟨he2, h2⟩
    · exact Or.inl (strLT_trans _ _ _ hs1 hs2)
    · exact Or.inl (he2 ▸ hs1)
  · rcases h2 with hs2 | ⟨he2, h2⟩
    · exact Or.inl (he1 ▸ hs2)
    · refine Or.inr ⟨he1.trans he2, ?_⟩
      rcases h1 with hb1 | ⟨hc1, hf1⟩
      · rcases h2 with hb2 | ⟨hc2, hf2⟩
        · rw [boolLT_iff] at hb1 hb2
          rw [hb1.2] at hb2
          cases hb2.1
        · exact Or.inl (hc2 ▸ hb1)
      · rcases h2 with hb2 | ⟨hc2, hf2⟩
        · exact Or.inl (hc1 ▸ hb2)
        · exact Or.inr ⟨hc1.trans hc2, lt_trans hf2 hf1⟩

theorem rowLE_total (r1 r2 : FreqRow) : rowLEb r1 r2 = true ∨ rowLEb r2 r1 = true := by
  unfold rowLEb
  have freqCase : ∀ a b : FreqRow, a.substring = b.substring →
      a.isCanonical = b.isCanonical →
      (rowLT a b || rowKeyEq a b) = true ∨ (rowLT b a || rowKeyEq b a) = true := by
    intro a b hsub hcan
    rcases Nat.lt_trichotomy a.freq b.freq with hf | hf | hf
    · exact Or.inr (by
        rw [(rowLT_iff b a).mpr (Or.inr ⟨hsub.symm, Or.inr ⟨hcan.symm, hf⟩⟩)]; simp)
    · exact Or.inl (by rw [(rowKeyEq_iff a b).mpr ⟨hsub, hcan, hf⟩]; simp)
    · exact Or.inl (by rw [(rowLT_iff a b).mpr (Or.inr ⟨hsub, Or.inr ⟨hcan, hf⟩⟩)]; simp)
  rcases strLT_trichotomy r1.substring r2.substring with hs | hs | hs
  · exact Or.inl (by rw [(rowLT_iff r1 r2).mpr (Or.inl hs)]; simp)
  · rcases Bool.eq_false_or_eq_true r1.isCanonical with hc1 | hc1 <;>
      rcases Bool.eq_false_or_eq_true r2.isCanonical with hc2 | hc2
    · exact freqCase r1 r2 hs (hc1.trans hc2.symm)
    · exact Or.inr (by
        rw [(rowLT_iff r2 r1).mpr
          (Or.inr ⟨hs.symm, Or.inl ((boolLT_iff r2.isCanonical r1.isCanonical).mpr ⟨hc2, hc1⟩)⟩)]
        simp)
    · exact Or.inl (by
        rw [(rowLT_iff r1 r2).mpr
          (Or.inr ⟨hs, Or.inl ((boolLT_iff r1.isCanonical r2.isCanonical).mpr ⟨hc1, hc2⟩)⟩)]
        simp)
    · exact freqCase r1 r2 hs (hc1.trans hc2.symm)
  · exact Or.inr (by rw [(rowLT_iff r2 r1).mpr (Or.inl hs)]; simp)

theorem rowKeyEq_rowLE (r1 r2 : FreqRow) (h : rowKeyEq r1 r2 = true) : rowLEb r1 r2 = true := by
  unfold rowLEb
  rw [h]
  simp

theorem rowLT_of_not_rowLE (r1 r2 : FreqRow) (h : ¬ rowLEb r1 r2 = true) :
    rowLT r2 r1 = true := by
  rcases rowLE_total r1 r2 with h1 | h1
  · exact absurd h1 h
  · unfold rowLEb at h h1
    simp only [Bool.or_eq_true] at h h1
    rcases h1 with h1 | h1
    · exact h1
    · exact absurd (Or.inr (rowKeyEq_symm _ _ h1)) h

theorem rowLE4_trans (r1 r2 r3 : FreqRow) (h1 : rowLE4 r1 r2 = true) (h2 : rowLE4 r2 r3 = true) :
    rowLE4 r1 r3 = true := by
  unfold rowLE4 at h1 h2 ⊢
  simp only [Bool.or_eq_true, Bool.and_eq_true] at h1 h2 ⊢
  rcases h1 with h1 | ⟨he1, hu1⟩
  · rcases h2 with h2 | ⟨he2, hu2⟩
    · exact Or.inl (rowLT_trans _ _ _ h1 h2)
    · exact Or.inl ((rowLT_congr_right r1 r2 r3 he2) ▸ h1)
  · rcases h2 with h2 | ⟨he2, hu2⟩
    · exact Or.inl ((rowLT_congr_left r1 r2 r3 he1).symm ▸ h2)
    · exact Or.inr ⟨rowKeyEq_trans _ _ _ he1 he2, strLE_trans _ _ _ hu1 hu2⟩

theorem pairLE_total (a b : Str × Nat) : pairLEb a b = true ∨ pairLEb b a = true := by
  unfold pairLEb
  rcases Nat.lt_trichotomy a.2 b.2 with hf | hf | hf
  · exact Or.inr (by simp [hf])
  · rcases strLE_total a.1 b.1 with h | h
    · exact Or.inl (by simp [hf, h])
    · exact Or.inr (by simp [hf, h])
  · exact Or.inl (by simp [hf])

theorem pairLE_trans (a b c : Str × Nat) (h1 : pairLEb a b = true) (h2 : pairLEb b c = true) :
    pairLEb a c = true := by
  unfold pairLEb at h1 h2 ⊢
  simp only [Bool.or_eq_true, Bool.and_eq_true, decide_eq_true_eq] at h1 h2 ⊢
  rcases h1 with h1 | ⟨he1, hu1⟩
  · rcases h2 with h2 | ⟨he2, hu2⟩
    · exact Or.inl (lt_trans h2 h1)
    · exact Or.inl (he2 ▸ h1)
  · rcases h2 with h2 | ⟨he2, hu2⟩
    · exact Or.inl (he1 ▸ h2)
    · exact Or.inr ⟨he1.trans he2, strLE_trans _ _ _ hu1 hu2⟩

theorem sortPairs_pairwise (cnts : List (Str × Nat)) : (sortPairs cnts).Pairwise pairLEP := by
  haveI : IsTotal (Str × Nat) pairLEP := ⟨fun a b => pairLE_total a b⟩
  haveI : IsTrans (Str × Nat) pairLEP := ⟨fun a b c => pairLE_trans a b c⟩
  simpa [List.Sorted] using List.sorted_insertionSort pairLEP cnts

theorem rowsOfEntry_pairwise (e : Str × List (Str × Nat)) :
    (rowsOfEntry e).Pairwise
      (fun a b => rowKeyEq a b = true → strLE a.unicode b.unicode = true) := by
  unfold rowsOfEntry
  rw [List.pairwise_map]
  apply List.Pairwise.imp ?_ (sortPairs_pairwise e.2)
  intro p q hpq hkey
  rw [rowKeyEq_iff] at hkey
  have hfreq : p.2 = q.2 := hkey.2.2
  unfold pairLEP pairLEb at hpq
  simp only [Bool.or_eq_true, Bool.and_eq_true, decide_eq_true_eq] at hpq
  rcases hpq with h | ⟨_, h⟩
  · omega
  · exact h

theorem mem_rowsOfEntry (e : Str × List (Str × Nat)) (r : FreqRow) (hr : r ∈ rowsOfEntry e) :
    r.substring = entryBase e.1 ∧ r.isCanonical = hasCanonMark e.1 := by
  unfold rowsOfEntry at hr
  obtain ⟨p, hp, rfl⟩ := List.mem_map.mp hr
  exact ⟨rfl, rfl⟩

theorem rows_tie_pairwise (tbl : FreqTable)
    (hwf : tbl.Pairwise (fun e1 e2 =>
      ¬(entryBase e1.1 = entryBase e2.1 ∧ hasCanonMark e1.1 = hasCanonMark e2.1))) :
    ((tbl.map rowsOfEntry).flatten).Pairwise
      (fun a b => rowKeyEq a b = true → strLE a.unicode b.unicode = true) := by
  rw [List.pairwise_flatten]
  constructor
  · intro l hl
    obtain ⟨e, he, rfl⟩ := List.mem_map.mp hl
    exact rowsOfEntry_pairwise e
  · rw [List.pairwise_map]
    apply List.Pairwise.imp ?_ hwf
    intro e1 e2 hne a ha b hb hkey
    exfalso
    obtain ⟨hs1, hc1⟩ := mem_rowsOfEntry e1 a ha
    obtain ⟨hs2, hc2⟩ := mem_rowsOfEntry e2 b hb
    rw [rowKeyEq_iff] at hkey
    exact hne ⟨by rw [← hs1, ← hs2]; exact hkey.1, by rw [← hc1, ← hc2]; exact hkey.2.1⟩

theorem orderedInsert_refine (x : FreqRow) : ∀ s : List FreqRow,
    s.Pairwise (fun a b => rowLE4 a b = true) →
    (∀ b ∈ s, rowKeyEq x b = true → strLE x.unicode b.unicode = true) →
    (List.orderedInsert rowLEP x s).Pairwise (fun a b => rowLE4 a b = true) := by
  intro s
  induction s with
  | nil => intro _ _; simp [List.orderedInsert]
  | cons y s ih =>
    intro hp htie
    by_cases hxy : rowLEP x y
    · rw [show List.orderedInsert rowLEP x (y :: s) = x :: y :: s from by
        simp [List.orderedInsert, hxy]]
      have hx4y : rowLE4 x y = true := by
        have h := hxy
        unfold rowLEP rowLEb at h
        simp only [Bool.or_eq_true] at h
        unfold rowLE4
        rcases h with h | h
        · rw [h]; simp
        · rw [h, htie y (List.mem_cons_self y s) h]; simp
      constructor
      · intro b hb
        rcases List.mem_cons.mp hb with rfl | hb
        · exact hx4y
        · exact rowLE4_trans x y b hx4y (List.rel_of_pairwise_cons hp hb)
      · exact hp
    · rw [show List.orderedInsert rowLEP x (y :: s) = y :: List.orderedInsert rowLEP x s from by
        simp [List.orderedInsert, hxy]]
      have hyx : rowLT y x = true := rowLT_of_not_rowLE x y hxy
      constructor
      · intro b hb
        rcases (List.mem_orderedInsert rowLEP).mp hb with rfl | hb
        · unfold rowLE4; rw [hyx]; simp
        · exact List.rel_of_pairwise_cons hp hb
      · exact ih hp.of_cons (fun b hb h => htie b (List.mem_cons_of_mem y hb) h)

theorem insertionSort_refine : ∀ l : List FreqRow,
    l.Pairwise (fun a b => rowKeyEq a b = true → strLE a.unicode b.unicode = true) →
    (List.insertionSort rowLEP l).Pairwise (fun a b => rowLE4 a b = true) := by
  intro l
  induction l with
  | nil => intro _; simp
  | cons x l ih =>
    intro hp
    rw [show List.insertionSort rowLEP (x :: l)
        = List.orderedInsert rowLEP x (List.insertionSort rowLEP l) from rfl]
    apply orderedInsert_refine
    · exact ih hp.of_cons
    · intro b hb hk
      exact List.rel_of_pairwise_cons hp ((List.mem_insertionSort rowLEP).mp hb) hk

/-- C9: the exported frequency table is sorted by substring ascending, then
`isCanonical` ascending (regular rows before canonical rows), then frequency
descending, with frequency ties broken by codepoint ascending (`rowLE4` is
exactly that lexicographic order).  The hypothesis states that distinct
frequency-dict keys display under distinct `(substring, isCanonical)` pairs,
which holds for the keys `s` and `s + '_canonical'` that
`process_frequency_mapping` creates whenever no substring itself ends in
`'_canonical'`. -/
theorem freq_export_order (tbl : FreqTable)
    (hwf : tbl.Pairwise (fun e1 e2 =>
      ¬(entryBase e1.1 = entryBase e2.1 ∧ hasCanonMark e1.1 = hasCanonMark e2.1))) :
    (createFrequencyDataframe tbl).Pairwise (fun r1 r2 => rowLE4 r1 r2 = true) := by
  unfold createFrequencyDataframe
  exact insertionSort_refine _ (rows_tie_pairwise tbl hwf)

theorem freq_export_order_witness :
    ([(['k', 'a'], [(['B'], 5), (['A'], 5)]), (['t', 'a'], [(['C'], 2)])] : FreqTable).Pairwise
        (fun e1 e2 => ¬(entryBase e1.1 = entryBase e2.1 ∧ hasCanonMark e1.1 = hasCanonMark e2.1))
  ∧ (createFrequencyDataframe
        [(['k', 'a'], [(['B'], 5), (['A'], 5)]), (['t', 'a'], [(['C'], 2)])]).Pairwise
        (fun r1 r2 => rowLE4 r1 r2 = true) :=
  ⟨by decide, freq_export_order _ (by decide)⟩
